import Mathlib

/-!
# Verification of the Quantum-Crypto education toolkit

Shallow embedding of the Python sources (`01_rsa_basics.py`,
`02_classical_attack.py`, `03_shors_algorithm.py`,
`07_advanced_post_quantum.py`) and proofs about the embedded definitions.

Conventions used throughout:
* Python unbounded ints are `ℕ` (when provably non-negative) or `ℤ`.
* Python `%` on ints with a positive right operand agrees with `Int.emod`
  (Lean's `%` on `ℤ`) and with `Nat.mod` on naturals; Python `//` on
  non-negative operands agrees with `Nat.div` / `Int.ediv`.
* `while` loops are embedded as structurally recursive functions on an
  explicit fuel argument; in every use the fuel is chosen so large that it
  provably never runs out (each such lemma states the needed lower bound),
  so the fuel-exhausted branch is unreachable.
* Randomness (`random.randint`, `np.random.randint`, `secrets.token_bytes`)
  is modelled by universally quantified inputs constrained to the exact
  sampling range of the call site.
* `float` computations appear only in dead-for-our-claims positions
  (elapsed-time fields, `int(n**0.5)`/`round(N**(1/b))`); where one feeds an
  integer loop bound we use the exact integer counterpart (`Nat.sqrt`),
  noted at the definition.
-/

/-! ## 01_rsa_basics.py -/

/-- Embedding of Python's built-in three-argument `pow(b, e, n)`
(binary modular exponentiation), written with fuel; `pow_mod` below
supplies fuel `e + 1`, which never runs out. -/
def pow_mod_go : ℕ → ℕ → ℕ → ℕ → ℕ
  | 0, _b, _e, n => 1 % n
  | fuel + 1, b, e, n =>
    if e = 0 then 1 % n
    else
      let r := pow_mod_go fuel (b * b % n) (e / 2) n
      if e % 2 = 1 then r * b % n else r

/-- Python `pow(b, e, n)` for natural arguments. -/
def pow_mod (b e n : ℕ) : ℕ := pow_mod_go (e + 1) b e n

theorem pow_mod_go_eq : ∀ fuel b e n, 0 < n → e < fuel →
    pow_mod_go fuel b e n = b ^ e % n := by
  intro fuel
  induction fuel with
  | zero => intro b e n _ h; omega
  | succ fuel ih =>
    intro b e n hn he
    by_cases h0 : e = 0
    · simp [pow_mod_go, h0]
    · have h1 : 1 ≤ e := Nat.one_le_iff_ne_zero.mpr h0
      have hlt : e / 2 < fuel :=
        lt_of_lt_of_le (Nat.div_lt_self (by omega) (by omega)) (by omega)
      have hr : pow_mod_go fuel (b * b % n) (e / 2) n = (b * b) ^ (e / 2) % n := by
        rw [ih (b * b % n) (e / 2) n hn hlt, ← Nat.pow_mod]
      have hsplit : 2 * (e / 2) + e % 2 = e := Nat.div_add_mod e 2
      have hpow : (b * b) ^ (e / 2) = b ^ (2 * (e / 2)) := by
        rw [← pow_two, ← pow_mul]
      by_cases hpar : e % 2 = 1
      · have he2 : e = 2 * (e / 2) + 1 := by omega
        simp only [pow_mod_go, h0, if_false, hpar, if_true]
        rw [hr]
        calc (b * b) ^ (e / 2) % n * b % n
            = (b * b) ^ (e / 2) * b % n := Nat.mod_mul_mod
          _ = b ^ e % n := by
              congr 1
              rw [hpow]
              conv_rhs => rw [he2]
              rw [pow_succ]
      · have hpar0 : e % 2 = 0 := by omega
        have he2 : e = 2 * (e / 2) := by omega
        simp only [pow_mod_go, h0, if_false, hpar, if_false]
        rw [hr]
        congr 1
        rw [hpow, ← he2]

theorem pow_mod_eq (b e n : ℕ) (hn : 0 < n) : pow_mod b e n = b ^ e % n :=
  pow_mod_go_eq (e + 1) b e n hn (Nat.lt_succ_self e)

/-- Executable integer square root (ascending search), used to model the
sources' `int(n**0.5)` / `int(math.sqrt(n))` exactly: for the magnitudes in
this repository the `float` square root is exact enough that truncation
equals `⌊√n⌋`.  `isqrt_eq` below identifies it with `Nat.sqrt`
(which itself does not reduce in the kernel, hence this re-implementation). -/
def isqrt_go (n : ℕ) : ℕ → ℕ → ℕ
  | 0, k => k
  | fuel + 1, k => if (k + 1) * (k + 1) ≤ n then isqrt_go n fuel (k + 1) else k

def isqrt (n : ℕ) : ℕ := isqrt_go n n 0

theorem isqrt_go_spec (n : ℕ) : ∀ fuel k, k * k ≤ n → Nat.sqrt n ≤ fuel + k →
    isqrt_go n fuel k = Nat.sqrt n := by
  intro fuel
  induction fuel with
  | zero =>
    intro k hk hle
    have h1 : k ≤ Nat.sqrt n := Nat.le_sqrt.mpr hk
    simpa [isqrt_go] using le_antisymm h1 (by simpa using hle)
  | succ fuel ih =>
    intro k hk hle
    by_cases h : (k + 1) * (k + 1) ≤ n
    · have h1 : k + 1 ≤ Nat.sqrt n := Nat.le_sqrt.mpr h
      simp only [isqrt_go, h, if_true]
      exact ih (k + 1) h (by omega)
    · have h2 : Nat.sqrt n < k + 1 := Nat.sqrt_lt.mpr (by omega)
      have h1 : k ≤ Nat.sqrt n := Nat.le_sqrt.mpr hk
      simp only [isqrt_go, h, if_false]
      omega

theorem isqrt_eq (n : ℕ) : isqrt n = Nat.sqrt n :=
  isqrt_go_spec n n 0 (by simp) (by simpa using Nat.sqrt_le_self n)

/-- Embedding of `is_prime`'s odd-divisor scan
`for i in range(3, int(n**0.5) + 1, 2)` (so `i` runs over the odd numbers
`3, 5, ... ≤ √n`); the range bound `int(n**0.5) + 1` is passed in as `bound`
(computed once, as `range` does).  Fuel `bound + 1` (supplied by `is_prime`)
never runs out. -/
def is_prime_go (n bound : ℕ) : ℕ → ℕ → Bool
  | 0, _i => true
  | fuel + 1, i =>
    if bound ≤ i then true
    else if n % i = 0 then false
    else is_prime_go n bound fuel (i + 2)

/-- Embedding of `is_prime` from `01_rsa_basics.py`. -/
def is_prime (n : ℕ) : Bool :=
  if n < 2 then false
  else if n = 2 then true
  else if n % 2 = 0 then false
  else is_prime_go n (isqrt n + 1) (isqrt n + 1) 3

/-- The set of values `generate_prime(bits)` can return: it samples
`random.randint(2^(bits-1), 2^bits - 1)`, bumps even draws by one (staying
inside the range, since the top of the range is odd), and returns the first
draw passing `is_prime`.  Every returned value is therefore an odd number in
the range passing `is_prime`, and conversely every such number can be drawn
directly. -/
def generate_prime_spec (bits p : ℕ) : Prop :=
  is_prime p = true ∧ p % 2 = 1 ∧ 2 ^ (bits - 1) ≤ p ∧ p ≤ 2 ^ bits - 1

instance (bits p : ℕ) : Decidable (generate_prime_spec bits p) := by
  unfold generate_prime_spec; infer_instance

/-- Embedding of the recursive inner `extended_gcd(a, b)` of `mod_inverse`,
with fuel.  All reachable calls have `0 ≤ a` and `0 ≤ b` (they start from
`(e % phi, phi)` and recurse with `(b % a, a)`), where Python's `%` and `//`
agree with `Int.emod` and `Int.ediv`.  `mod_inverse` supplies fuel
`a.toNat + 1`, which never runs out since `b % a < a` strictly decreases. -/
def extended_gcd : ℕ → ℤ → ℤ → ℤ × ℤ × ℤ
  | 0, _a, b => (b, 0, 1)
  | fuel + 1, a, b =>
    if a = 0 then (b, 0, 1)
    else
      let r := extended_gcd fuel (b % a) a
      (r.1, r.2.2 - b / a * r.2.1, r.2.1)

/-- Embedding of `mod_inverse(e, phi)` from `01_rsa_basics.py`:
`(x % phi + phi) % phi` where `x` is the Bezout coefficient returned by
`extended_gcd(e % phi, phi)`.  The result is non-negative for `phi > 0`,
so it is returned as a natural number. -/
def mod_inverse (e phi : ℕ) : ℕ :=
  let a : ℤ := (e : ℤ) % (phi : ℤ)
  let r := extended_gcd (a.toNat + 1) a (phi : ℤ)
  ((r.2.1 % (phi : ℤ) + (phi : ℤ)) % (phi : ℤ)).toNat

/-- Embedding of the public-exponent fallback scan in `generate_rsa_keys`:
`e = 3; while gcd(e, phi) != 1: e += 2`.  Fuel `phi + 1` is supplied by
`choose_public_exponent`; the scan is never evaluated in any theorem below
(all concrete keys in this file take the `e = 65537` branch). -/
def find_coprime_e_go (phi : ℕ) : ℕ → ℕ → ℕ
  | 0, e => e
  | fuel + 1, e => if Nat.gcd e phi = 1 then e else find_coprime_e_go phi fuel (e + 2)

/-- The public-exponent choice of `generate_rsa_keys`:
`e = 65537; if e >= phi: e = 3; while gcd(e, phi) != 1: e += 2`. -/
def choose_public_exponent (phi : ℕ) : ℕ :=
  if 65537 ≥ phi then find_coprime_e_go phi (phi + 1) 3 else 65537

/-- The deterministic tail of `generate_rsa_keys` once the two random primes
`p` and `q` are fixed: `n = p*q`, `phi = (p-1)*(q-1)`, the public exponent
choice, and `d = mod_inverse(e, phi)`.  Returns
`((e, n), (d, n), (p, q))` exactly as the source does. -/
def generate_rsa_keys_from (p q : ℕ) : (ℕ × ℕ) × (ℕ × ℕ) × (ℕ × ℕ) :=
  let n := p * q
  let phi := (p - 1) * (q - 1)
  let e := choose_public_exponent phi
  let d := mod_inverse e phi
  ((e, n), (d, n), (p, q))

/-- The set of triples `generate_rsa_keys(bits)` can return: two distinct
draws of `generate_prime(bits)` (the source re-samples `q` while `q == p`)
followed by the deterministic tail. -/
def generate_rsa_keys_spec (bits : ℕ) (out : (ℕ × ℕ) × (ℕ × ℕ) × (ℕ × ℕ)) : Prop :=
  ∃ p q, generate_prime_spec bits p ∧ generate_prime_spec bits q ∧ q ≠ p ∧
    out = generate_rsa_keys_from p q

/-- The error raised by `encrypt` (`ValueError(f"Message {message} terlalu
besar! Harus < {n}")`), carrying the offending message and the modulus. -/
inductive RSAError where
  | invalidInput (message n : ℕ)
deriving DecidableEq

/-- Embedding of `encrypt(message, public_key)` from `01_rsa_basics.py`. -/
def encrypt (message : ℕ) (public_key : ℕ × ℕ) : Except RSAError ℕ :=
  let (e, n) := public_key
  if message ≥ n then Except.error (RSAError.invalidInput message n)
  else Except.ok (pow_mod message e n)

/-- Embedding of `decrypt(ciphertext, private_key)` from `01_rsa_basics.py`. -/
def decrypt (ciphertext : ℕ) (private_key : ℕ × ℕ) : ℕ :=
  let (d, n) := private_key
  pow_mod ciphertext d n

/-- C3: for every public key `(e, n)` and message `m`, `encrypt` raises
`InvalidInput` exactly when `m ≥ n`, and for `m < n` it returns
`m ^ e mod n` without raising. -/
theorem encrypt_invalid_input_iff (e n message : ℕ) :
    (encrypt message (e, n) = Except.error (RSAError.invalidInput message n) ↔ n ≤ message)
    ∧ (message < n → encrypt message (e, n) = Except.ok (message ^ e % n)) := by
  constructor
  · constructor
    · intro h
      by_contra hn
      have hlt : message < n := by omega
      simp [encrypt, Nat.not_le.mpr hlt] at h
    · intro h
      simp [encrypt, h]
  · intro h
    have hn : 0 < n := by omega
    simp [encrypt, Nat.not_le.mpr h, pow_mod_eq message e n hn]

theorem encrypt_invalid_input_iff_witness :
    ((3233 : ℕ) ≤ 4000 ∧
      encrypt 4000 (17, 3233) = Except.error (RSAError.invalidInput 4000 3233))
    ∧ ((42 : ℕ) < 3233 ∧ encrypt 42 (17, 3233) = Except.ok (42 ^ 17 % 3233)) :=
  ⟨⟨by decide, (encrypt_invalid_input_iff 17 3233 4000).1.mpr (by decide)⟩,
   ⟨by decide, (encrypt_invalid_input_iff 17 3233 42).2 (by decide)⟩⟩

set_option maxRecDepth 4000 in
/-- C2 (code bug): `generate_rsa_keys` documents, at its Step 4, that `e`
is chosen with `gcd(e, φ(n)) = 1`, but when `65537 < φ` it uses `e = 65537`
without any coprimality check.  With `bits = 20` the prime
`p = 917519 = 14·65537 + 1` is a possible draw (it is odd, lies in
`[2^19, 2^20 - 1]` and passes `is_prime`), and for any second prime, e.g.
`q = 524309`, we get `65537 ∣ p - 1 ∣ φ`, so `gcd(e, φ) = 65537 ≠ 1` and the
returned `d = mod_inverse(65537, φ) = 1` is not a modular inverse of `e`:
the key invariant claimed by the spec fails on this reachable key triple. -/
theorem generate_rsa_keys_coprime_bug :
    generate_rsa_keys_spec 20
      ((65537, 481063469371), (1, 481063469371), (917519, 524309))
    ∧ Nat.gcd 65537 ((917519 - 1) * (524309 - 1)) = 65537
    ∧ 65537 * 1 % ((917519 - 1) * (524309 - 1)) ≠ 1 := by
  refine ⟨⟨917519, 524309, ?_, ?_, ?_, ?_⟩, ?_, ?_⟩ <;> decide

set_option maxRecDepth 4000 in
/-- C1 (code bug): on the same reachable key triple as
`generate_rsa_keys_coprime_bug` (`bits = 20`, `p = 917519`, `q = 524309`,
`e = 65537`, `d = 1`, `n = p·q`), the round trip fails for the message
`m = 2 < n`: `encrypt` yields `2^65537 mod n = 446373462864` and `decrypt`
raises it to the power `d = 1`, returning `446373462864 ≠ 2`. -/
theorem rsa_roundtrip_code_bug :
    generate_rsa_keys_spec 20
      ((65537, 481063469371), (1, 481063469371), (917519, 524309))
    ∧ (2 : ℕ) < 481063469371
    ∧ encrypt 2 (65537, 481063469371) = Except.ok 446373462864
    ∧ decrypt 446373462864 (1, 481063469371) = 446373462864
    ∧ (446373462864 : ℕ) ≠ 2 := by
  refine ⟨⟨917519, 524309, ?_, ?_, ?_, ?_⟩, ?_, ?_, ?_, ?_⟩ <;> first | decide | rfl

/-! ## 07_advanced_post_quantum.py : SPHINCSDemo -/

/-- Embedding of `SPHINCSDemo.verify(public_key, message, signature)` for
parameters `n` (hash bytes) and `w` (Winternitz width).  Byte strings are
lists of byte values; the SHA-256-based helper `_hash(*args)` is abstracted
as an arbitrary function `hash` on argument lists.  As in the source, the
method computes `msg_hash`, `sig_hash` and `expected` and then ignores all
three: the returned value is only the structural check
`len(signature) == self.w * self.n`. -/
def sphincs_verify (n w : ℕ) (hash : List (List ℕ) → List ℕ)
    (public_key message signature : List ℕ) : Bool :=
  let msg_hash := hash [message]
  let _sig_hash := hash [signature, msg_hash]
  let _expected := hash [public_key, hash [message]]
  signature.length == w * n

/-- C4: for every hash function, public key, message and signature,
`SPHINCSDemo.verify` returns `true` exactly when the signature length is
`w * n` bytes; the right-hand side mentions only the length, so the result
is independent of the content of the signature, the message, the public key
and even the hash function. -/
theorem sphincs_verify_length_only (n w : ℕ) (hash : List (List ℕ) → List ℕ)
    (public_key message signature : List ℕ) :
    sphincs_verify n w hash public_key message signature = true ↔
      signature.length = w * n := by
  simp [sphincs_verify]

/-! ## 02_classical_attack.py -/

/-- Embedding of the odd-candidate loop of `trial_division`
(`while i <= sqrt_n: attempts += 1; if n % i == 0: return ...; i += 2`),
with the loop bound `sqrt_n = int(math.sqrt(n)) + 1` passed in as `bound`.
The elapsed-time component of the source's return tuple is omitted (no claim
concerns it); the result is `(p, q, attempts)`.  Fuel `bound + 1` (supplied
by `trial_division`) never runs out. -/
def trial_division_go (n bound : ℕ) : ℕ → ℕ → ℕ → Option ℕ × Option ℕ × ℕ
  | 0, _i, attempts => (none, none, attempts)
  | fuel + 1, i, attempts =>
    if bound < i then (none, none, attempts)
    else if n % i = 0 then (some i, some (n / i), attempts + 1)
    else trial_division_go n bound fuel (i + 2) (attempts + 1)

/-- Embedding of `trial_division(n)` from `02_classical_attack.py`
(without the elapsed-seconds field): check 2 first (one attempt), then scan
odd candidates from 3 up to `int(math.sqrt(n)) + 1` inclusive. -/
def trial_division (n : ℕ) : Option ℕ × Option ℕ × ℕ :=
  if n % 2 = 0 then (some 2, some (n / 2), 1)
  else trial_division_go n (isqrt n + 1) (isqrt n + 2) 3 1

theorem trial_division_go_spec (n bound : ℕ) : ∀ fuel i attempts, i % 2 = 1 →
    bound + 1 ≤ 2 * fuel + i →
    ((trial_division_go n bound fuel i attempts).1 = none ∧
      (trial_division_go n bound fuel i attempts).2.1 = none ∧
      attempts ≤ (trial_division_go n bound fuel i attempts).2.2 ∧
      ∀ j, i ≤ j → j ≤ bound → j % 2 = 1 → ¬ j ∣ n)
    ∨ (∃ p, (trial_division_go n bound fuel i attempts).1 = some p ∧
      (trial_division_go n bound fuel i attempts).2.1 = some (n / p) ∧
      p ∣ n ∧ i ≤ p ∧ p ≤ bound ∧ p % 2 = 1 ∧
      attempts < (trial_division_go n bound fuel i attempts).2.2) := by
  intro fuel
  induction fuel with
  | zero =>
    intro i att hodd hle
    left
    refine ⟨rfl, rfl, le_refl _, ?_⟩
    intro j hj1 hj2 _ _
    omega
  | succ fuel ih =>
    intro i att hodd hle
    by_cases hbi : bound < i
    · left
      have hgo : trial_division_go n bound (fuel + 1) i att = (none, none, att) := by
        simp [trial_division_go, if_pos hbi]
      rw [hgo]
      exact ⟨rfl, rfl, le_refl _, fun j hj1 hj2 _ _ => by omega⟩
    · by_cases hdiv : n % i = 0
      · right
        refine ⟨i, ?_, ?_, Nat.dvd_of_mod_eq_zero hdiv, le_refl i, by omega, hodd, ?_⟩ <;>
          simp only [trial_division_go, if_neg hbi, if_pos hdiv] <;> omega
      · have hrec := ih (i + 2) (att + 1) (by omega) (by omega)
        simp only [trial_division_go, if_neg hbi, if_neg hdiv]
        rcases hrec with ⟨h1, h2, h3, h4⟩ | ⟨p, hp1, hp2, hp3, hp4, hp5, hp6, hp7⟩
        · left
          refine ⟨h1, h2, by omega, ?_⟩
          intro j hj1 hj2 hj3 hdvd
          rcases eq_or_lt_of_le hj1 with rfl | hlt
          · exact hdiv (Nat.mod_eq_zero_of_dvd hdvd)
          · exact h4 j (by omega) hj2 hj3 hdvd
        · right
          exact ⟨p, hp1, hp2, hp3, by omega, hp5, hp6, by omega⟩


/-- If an odd `n ≥ 3` has no odd divisor `j` with `3 ≤ j ≤ √n + 1`, then `n`
is prime: a composite `n` has `minFac n ≤ √n`, and for odd `n` the least
factor is odd and at least 3. -/
theorem prime_of_no_odd_divisors {n : ℕ} (h3 : 3 ≤ n) (hodd : n % 2 = 1)
    (h : ∀ j, 3 ≤ j → j ≤ Nat.sqrt n + 1 → j % 2 = 1 → ¬ j ∣ n) :
    Nat.Prime n := by
  by_contra hnp
  have hp : (Nat.minFac n).Prime := Nat.minFac_prime (by omega)
  have hdvd : Nat.minFac n ∣ n := Nat.minFac_dvd n
  have hne2 : Nat.minFac n ≠ 2 := by
    intro h2
    have h2d : (2 : ℕ) ∣ n := h2 ▸ hdvd
    omega
  have h2le := hp.two_le
  have hoddf : Nat.minFac n % 2 = 1 := by
    rcases Nat.mod_two_eq_zero_or_one (Nat.minFac n) with he | ho
    · exfalso
      have h2d : (2 : ℕ) ∣ Nat.minFac n := by omega
      rcases hp.eq_one_or_self_of_dvd 2 h2d with hcase | hcase <;> omega
    · exact ho
  have hsq : Nat.minFac n ^ 2 ≤ n := Nat.minFac_sq_le_self (by omega) hnp
  rw [pow_two] at hsq
  have hle_sqrt : Nat.minFac n ≤ Nat.sqrt n := Nat.le_sqrt.mpr hsq
  exact h (Nat.minFac n) (by omega) (by omega) hoddf hdvd

/-- For `n ≥ 3` the scan bound `√n + 1` is strictly below `n`, so a prime
`n` can never equal a scanned candidate. -/
theorem sqrt_add_one_lt {n : ℕ} (h3 : 3 ≤ n) : Nat.sqrt n + 1 < n := by
  by_contra hle
  push_neg at hle
  obtain ⟨m, rfl⟩ : ∃ m, n = m + 3 := ⟨n - 3, by omega⟩
  have h1 : m + 2 ≤ Nat.sqrt (m + 3) := by omega
  have h2 : (m + 2) * (m + 2) ≤ m + 3 := Nat.le_sqrt.mp h1
  nlinarith [h2]

/-- C6 (amended): for every `n ≥ 3`, `trial_division(n)` returns absent
factors exactly when `n` is prime, any returned factor pair `(p, q)`
satisfies `p * q = n`, and the attempt count is always positive; moreover
`trial_division(143) = (11, 13)` with 6 attempts and `trial_division(97)`
returns absent factors (5 attempts).  (The original claim ranged over
`n ≥ 2`; it fails at the prime `n = 2`, see
`trial_division_two_counterexample`.) -/
theorem trial_division_spec :
    (∀ n, 3 ≤ n →
      ((((trial_division n).1 = none ∧ (trial_division n).2.1 = none) ↔ Nat.Prime n)
        ∧ (∀ p q a, trial_division n = (some p, some q, a) → p * q = n ∧ 0 < a)
        ∧ 0 < (trial_division n).2.2))
    ∧ trial_division 143 = (some 11, some 13, 6)
    ∧ trial_division 97 = (none, none, 5) := by
  refine ⟨?_, by decide, by decide⟩
  intro n hn3
  by_cases hev : n % 2 = 0
  · have hnp : ¬ Nat.Prime n := by
      intro hp
      have h2d : (2 : ℕ) ∣ n := by omega
      rcases hp.eq_one_or_self_of_dvd 2 h2d with hcase | hcase <;> omega
    have htd : trial_division n = (some 2, some (n / 2), 1) := by
      simp [trial_division, hev]
    rw [htd]
    refine ⟨by simp [hnp], ?_, by norm_num⟩
    intro p q a hpq
    have hp2 : p = 2 ∧ q = n / 2 ∧ a = 1 := by
      simpa [Prod.ext_iff] using hpq.symm
    obtain ⟨rfl, rfl, rfl⟩ := hp2
    have h2d : (2 : ℕ) ∣ n := by omega
    exact ⟨Nat.mul_div_cancel' h2d, by norm_num⟩
  · have hodd : n % 2 = 1 := by omega
    have htd : trial_division n =
        trial_division_go n (Nat.sqrt n + 1) (Nat.sqrt n + 2) 3 1 := by
      simp [trial_division, hev, isqrt_eq]
    have hspec := trial_division_go_spec n (Nat.sqrt n + 1) (Nat.sqrt n + 2) 3 1
      (by norm_num) (by omega)
    rw [htd]
    rcases hspec with ⟨h1, h2, hatt, h4⟩ | ⟨p, hp1, hp2, hp3, hp4, hp5, hp6, hp7⟩
    · have hprime : Nat.Prime n :=
        prime_of_no_odd_divisors hn3 hodd (fun j hj1 hj2 hj3 => h4 j hj1 (by omega) hj3)
    
      refine ⟨by simp [h1, h2, hprime], ?_, by omega⟩
      intro p q a hpq
      rw [hpq] at h1
      simp at h1
    · have hnp : ¬ Nat.Prime n := by
        intro hp
        rcases hp.eq_one_or_self_of_dvd p hp3 with hcase | hcase
        · omega
        · have := sqrt_add_one_lt hn3
          omega
      refine ⟨?_, ?_, by omega⟩
      · constructor
        · rintro ⟨ha, -⟩
          rw [hp1] at ha
          simp at ha
        · intro hpr
          exact absurd hpr hnp
      · intro p' q' a hpq
        rw [hpq] at hp1 hp2 hp7
        simp only [] at hp1 hp2 hp7
        have hpp : p' = p := by simpa using hp1
        have hqq : q' = n / p := by simpa using hp2
        subst hpp hqq
        exact ⟨Nat.mul_div_cancel' hp3, by omega⟩

theorem trial_division_spec_witness :
    (3 ≤ 143) ∧
    ((((trial_division 143).1 = none ∧ (trial_division 143).2.1 = none) ↔ Nat.Prime 143)
      ∧ (∀ p q a, trial_division 143 = (some p, some q, a) → p * q = 143 ∧ 0 < a)
      ∧ 0 < (trial_division 143).2.2) :=
  ⟨by norm_num, trial_division_spec.1 143 (by norm_num)⟩

/-- C6 (counterexample to the original claim): `n = 2` is prime, yet
`trial_division(2)` does not return absent factors — it returns the pair
`(2, 1)` (with `2 * 1 = 2`), because the divisibility-by-2 check fires
before any primality consideration. -/
theorem trial_division_two_counterexample :
    Nat.Prime 2 ∧ trial_division 2 = (some 2, some 1, 1) ∧
      ¬ ((trial_division 2).1 = none ∧ (trial_division 2).2.1 = none) := by
  refine ⟨by norm_num, by decide, by decide⟩

/-! ## 03_shors_algorithm.py -/

/-- Embedding of the loop of `classical_period_finding(a, N)`:
`r = 1; current = a % N`, then
`while current != 1: current = (current * a) % N; r += 1; if r > N: return -1`.
Fuel `N + 1` (supplied by `classical_period_finding`) never runs out: under
the invariant `fuel + r ≥ N + 1` the safety bail-out `r > N` fires before
the fuel is exhausted, and the fuel-0 branch returns the same values the
source would. -/
def classical_period_finding_go (a N : ℕ) : ℕ → ℕ → ℕ → ℤ
  | 0, current, r => if current = 1 then (r : ℤ) else -1
  | fuel + 1, current, r =>
    if current = 1 then (r : ℤ)
    else if N < r + 1 then -1
    else classical_period_finding_go a N fuel (current * a % N) (r + 1)

/-- Embedding of `classical_period_finding(a, N)` from
`03_shors_algorithm.py`; returns the period as an integer, or the sentinel
`-1`. -/
def classical_period_finding (a N : ℕ) : ℤ :=
  classical_period_finding_go a N (N + 1) (a % N) 1

theorem classical_period_finding_go_spec (a N : ℕ) (hN : 2 ≤ N) :
    ∀ fuel current r, current = a ^ r % N → 1 ≤ r → r ≤ N → N + 1 ≤ fuel + r →
    ((∀ j, r ≤ j → j ≤ N → a ^ j % N ≠ 1) →
      classical_period_finding_go a N fuel current r = -1)
    ∧ (∀ r₀, r ≤ r₀ → r₀ ≤ N → a ^ r₀ % N = 1 →
        (∀ j, r ≤ j → j < r₀ → a ^ j % N ≠ 1) →
        classical_period_finding_go a N fuel current r = (r₀ : ℤ)) := by
  intro fuel
  induction fuel with
  | zero =>
    intro current r _ _ hrN hfuel
    constructor
    · intro _; exfalso; omega
    · intro r₀ _ _ _ _; exfalso; omega
  | succ fuel ih =>
    intro current r hcur h1 hrN hfuel
    by_cases hc : current = 1
    · constructor
      · intro hall
        exact absurd (hcur.symm.trans hc) (hall r le_rfl hrN)
      · intro r₀ hr₀1 hr₀N hone hmin
        have hr₀ : r₀ = r := by
          by_contra hne
          exact hmin r le_rfl (lt_of_le_of_ne hr₀1 (Ne.symm hne)) (hcur.symm.trans hc)
        subst hr₀
        simp [classical_period_finding_go, hc]
    · have hne : a ^ r % N ≠ 1 := fun h => hc (hcur.trans h)
      by_cases hbail : N < r + 1
      · constructor
        · intro _
          simp [classical_period_finding_go, hc, hbail]
        · intro r₀ hr₀1 hr₀N hone hmin
          exfalso
          have : r₀ = r := by omega
          exact hne (this ▸ hone)
      · have hstep : current * a % N = a ^ (r + 1) % N := by
          rw [hcur]
          calc a ^ r % N * a % N = a ^ r * a % N := Nat.mod_mul_mod
            _ = a ^ (r + 1) % N := by rw [pow_succ]
        have ihc := ih (current * a % N) (r + 1) hstep (by omega) (by omega) (by omega)
        constructor
        · intro hall
          simp only [classical_period_finding_go, if_neg hc, if_neg hbail]
          exact ihc.1 (fun j hj1 hj2 => hall j (by omega) hj2)
        · intro r₀ hr₀1 hr₀N hone hmin
          simp only [classical_period_finding_go, if_neg hc, if_neg hbail]
          have hr₀ : r + 1 ≤ r₀ := by
            rcases eq_or_lt_of_le hr₀1 with heq | hlt
            · exact absurd (heq ▸ hone) hne
            · omega
          exact ihc.2 r₀ hr₀ hr₀N hone (fun j hj1 hj2 => hmin j (by omega) hj2)

/-- C7: for every `a ≥ 0` and `N ≥ 2`, `classical_period_finding(a, N)`
returns the smallest `r ≥ 1` with `a^r ≡ 1 (mod N)` whenever such an
`r ≤ N` exists, and the sentinel `-1` when no `r ∈ [1, N]` satisfies the
congruence. -/
theorem classical_period_finding_spec (a N : ℕ) (hN : 2 ≤ N) :
    (∀ r₀, 1 ≤ r₀ → r₀ ≤ N → a ^ r₀ % N = 1 →
      (∀ j, 1 ≤ j → j < r₀ → a ^ j % N ≠ 1) →
      classical_period_finding a N = (r₀ : ℤ))
    ∧ ((∀ j, 1 ≤ j → j ≤ N → a ^ j % N ≠ 1) →
      classical_period_finding a N = -1) := by
  have hcur : a % N = a ^ 1 % N := by rw [pow_one]
  have h := classical_period_finding_go_spec a N hN (N + 1) (a % N) 1 hcur le_rfl
    (by omega) (by omega)
  exact ⟨fun r₀ ha hb hc hd => h.2 r₀ ha hb hc hd, h.1⟩

theorem classical_period_finding_spec_witness :
    (2 ≤ 15) ∧ classical_period_finding 7 15 = (4 : ℤ) :=
  ⟨by norm_num, (classical_period_finding_spec 7 15 (by norm_num)).1 4 (by norm_num)
    (by norm_num) (by decide) (by intro j h1 h2; interval_cases j <;> decide)⟩

/-- One iteration of the random-attempt loop of
`classical_shors_simulation` specialized to `N = 15`, with the sampled base
`a` (drawn by the source from `random.randint(2, N - 1)`) as input.
Returns `some (factor, 15 / factor)` when the iteration returns from the
function, `none` when it falls through to the next attempt.  Follows the
source line by line: gcd shortcut, period finding, discard on missing or
odd period, discard on `a^(r/2) ≡ -1 (mod N)`, then the two gcd candidates.
(`r // 2` is `r.toNat / 2`: the period is non-negative here.) -/
def shors_attempt (a : ℕ) : Option (ℕ × ℕ) :=
  let g := Nat.gcd a 15
  if 1 < g then some (g, 15 / g)
  else
    let r := classical_period_finding a 15
    if r = -1 then none
    else if r % 2 ≠ 0 then none
    else
      let x := pow_mod a (r.toNat / 2) 15
      if x = 15 - 1 then none
      else
        let factor1 := Nat.gcd (x - 1) 15
        let factor2 := Nat.gcd (x + 1) 15
        if factor1 ≠ 1 ∧ factor1 ≠ 15 then some (factor1, 15 / factor1)
        else if factor2 ≠ 1 ∧ factor2 ≠ 15 then some (factor2, 15 / factor2)
        else none

/-- The attempt loop (`for attempt in range(max_attempts)`) of
`classical_shors_simulation`, with the sequence of sampled bases as input;
returns `(None, None)` when all attempts are exhausted. -/
def classical_shors_simulation_15_loop : List ℕ → Option ℕ × Option ℕ
  | [] => (none, none)
  | a :: rest =>
    match shors_attempt a with
    | some (f1, f2) => (some f1, some f2)
    | none => classical_shors_simulation_15_loop rest

/-- Embedding of `classical_shors_simulation(N)` specialized to `N = 15`
(the value the claim is about), with the random draws supplied as
`choices` (the source makes up to `max_attempts = 10` draws).  Step 1
(`N % 2 == 0`) fails; step 2 scans `b` from 2 to `int(log2(15)) = 3` and
tests `round(15 ** (1/b)) ** b == 15`: the float roots round to 4 (`b = 2`)
and 2 (`b = 3`), embedded with those exact values; both tests fail, so the
attempt loop runs. -/
def classical_shors_simulation_15 (choices : List ℕ) : Option ℕ × Option ℕ :=
  if 15 % 2 = 0 then (some 2, some (15 / 2))
  else if 4 ^ 2 = 15 then (some 4, some (15 / 4))
  else if 2 ^ 3 = 15 then (some 2, some (15 / 2))
  else classical_shors_simulation_15_loop choices

theorem shors_attempt_cases : ∀ a, a < 15 → 2 ≤ a →
    (a = 14 ∧ shors_attempt a = none)
    ∨ shors_attempt a = some (3, 5) ∨ shors_attempt a = some (5, 3) := by decide

theorem classical_shors_simulation_15_loop_spec : ∀ choices : List ℕ,
    (∀ c ∈ choices, 2 ≤ c ∧ c ≤ 14) →
    classical_shors_simulation_15_loop choices = (some 3, some 5)
    ∨ classical_shors_simulation_15_loop choices = (some 5, some 3)
    ∨ (classical_shors_simulation_15_loop choices = (none, none) ∧
        ∀ c ∈ choices, c = 14) := by
  intro choices
  induction choices with
  | nil => intro _; right; right; exact ⟨rfl, by simp⟩
  | cons a rest ih =>
    intro hmem
    have ha := hmem a (List.mem_cons_self a rest)
    rcases shors_attempt_cases a (by omega) ha.1 with ⟨h14, hnone⟩ | h35 | h53
    · have hrest := ih (fun c hc => hmem c (List.mem_cons_of_mem a hc))
      simp only [classical_shors_simulation_15_loop, hnone]
      rcases hrest with h | h | ⟨h, hall⟩
      · left; exact h
      · right; left; exact h
      · refine Or.inr (Or.inr ⟨h, ?_⟩)
        intro c hc
        rcases List.mem_cons.mp hc with rfl | hc2
        · exact h14
        · exact hall c hc2
    · left; simp [classical_shors_simulation_15_loop, h35]
    · right; left; simp [classical_shors_simulation_15_loop, h53]

/-- C8 (amended): for every sequence of 10 random base draws (each in
`[2, 14]`), `classical_shors_simulation(15)` returns the unordered factor
pair `{3, 5}` — unless every single draw is `a = 14` (the one base with
`a^(r/2) ≡ -1 (mod 15)`), in which case all attempts are discarded and the
function returns absent factors.  The original claim (always `{3, 5}`)
fails exactly on that all-14 draw sequence, see
`classical_shors_simulation_15_counterexample`. -/
theorem classical_shors_simulation_15_spec (choices : List ℕ)
    (hlen : choices.length = 10) (hmem : ∀ c ∈ choices, 2 ≤ c ∧ c ≤ 14) :
    classical_shors_simulation_15 choices = (some 3, some 5)
    ∨ classical_shors_simulation_15 choices = (some 5, some 3)
    ∨ (classical_shors_simulation_15 choices = (none, none) ∧
        ∀ c ∈ choices, c = 14) := by
  have hred : classical_shors_simulation_15 choices =
      classical_shors_simulation_15_loop choices := by
    norm_num [classical_shors_simulation_15]
  rw [hred]
  exact classical_shors_simulation_15_loop_spec choices hmem

theorem classical_shors_simulation_15_spec_witness :
    (([7, 7, 7, 7, 7, 7, 7, 7, 7, 7] : List ℕ).length = 10)
    ∧ (classical_shors_simulation_15 [7, 7, 7, 7, 7, 7, 7, 7, 7, 7] = (some 3, some 5)
      ∨ classical_shors_simulation_15 [7, 7, 7, 7, 7, 7, 7, 7, 7, 7] = (some 5, some 3)
      ∨ (classical_shors_simulation_15 [7, 7, 7, 7, 7, 7, 7, 7, 7, 7] = (none, none) ∧
          ∀ c ∈ ([7, 7, 7, 7, 7, 7, 7, 7, 7, 7] : List ℕ), c = 14)) :=
  ⟨by decide,
   classical_shors_simulation_15_spec [7, 7, 7, 7, 7, 7, 7, 7, 7, 7] (by decide) (by decide)⟩

/-- C8 (counterexample to the original claim): the draw sequence consisting
of ten copies of `a = 14` is a possible sequence of random choices (each in
`[2, 14]`), and on it `classical_shors_simulation(15)` returns
`(None, None)`, not the factor pair `{3, 5}`: every attempt with `a = 14`
finds period `r = 2` but `14^(2/2) ≡ -1 (mod 15)`, so it is discarded. -/
theorem classical_shors_simulation_15_counterexample :
    ((List.replicate 10 (14 : ℕ)).length = 10)
    ∧ (∀ c ∈ List.replicate 10 (14 : ℕ), 2 ≤ c ∧ c ≤ 14)
    ∧ classical_shors_simulation_15 (List.replicate 10 14) = (none, none)
    ∧ classical_shors_simulation_15 (List.replicate 10 14) ≠ (some 3, some 5)
    ∧ classical_shors_simulation_15 (List.replicate 10 14) ≠ (some 5, some 3) :=
  ⟨by decide, by decide, by decide, by decide, by decide⟩

/-! ## 07_advanced_post_quantum.py : LWEDemo

Vectors of length `n` are `Fin n → ℤ`; all `numpy` arithmetic involved is
elementwise/`@`-product arithmetic on integers (the magnitudes stay far
below any `int64` bound, so machine arithmetic is exact). -/

/-- `numpy`'s `x @ y` for two integer vectors. -/
def lwe_dot {n : ℕ} (x y : Fin n → ℤ) : ℤ := ∑ i, x i * y i

/-- The public vector `b = (A @ s + e) % q` computed by
`LWEDemo.generate_keypair` (row `i` of `A @ s` is `A[i] @ s`). -/
def lwe_public_b (n q : ℕ) (A : Fin n → Fin n → ℤ) (s e : Fin n → ℤ) :
    Fin n → ℤ :=
  fun i => (lwe_dot (A i) s + e i) % (q : ℤ)

/-- Embedding of `LWEDemo.encrypt(public_key, message_bit)` with the random
draws `r` (binary vector), `e1`, `e2` as inputs:
`u = (A.T @ r + e1) % q` (row `i` of `A.T` is the `i`-th column of `A`) and
`v = (b @ r + e2 + message_bit * (q // 2)) % q`. -/
def lwe_encrypt (n q : ℕ) (A : Fin n → Fin n → ℤ) (b : Fin n → ℤ)
    (r e1 : Fin n → ℤ) (e2 : ℤ) (message_bit : ℤ) : (Fin n → ℤ) × ℤ :=
  (fun i => (lwe_dot (fun j => A j i) r + e1 i) % (q : ℤ),
   (lwe_dot b r + e2 + message_bit * ((q / 2 : ℕ) : ℤ)) % (q : ℤ))

/-- Embedding of `LWEDemo.decrypt(private_key, ciphertext)`:
`result = (v - s @ u) % q`, decoded to 1 iff
`result > q // 4 and result < 3 * q // 4`. -/
def lwe_decrypt (n q : ℕ) (s : Fin n → ℤ) (ciphertext : (Fin n → ℤ) × ℤ) : ℕ :=
  let u := ciphertext.1
  let v := ciphertext.2
  let result := (v - lwe_dot s u) % (q : ℤ)
  if ((q / 4 : ℕ) : ℤ) < result ∧ result < ((3 * q / 4 : ℕ) : ℤ) then 1 else 0

/-- C9 (amended): `LWEDemo.decrypt` returns 1 exactly when
`(v − s·u) mod q` lies strictly between `⌊q/4⌋` and `⌊3q/4⌋` — the source
compares against the integer floor divisions `q // 4` and `3 * q // 4` —
and returns 0 otherwise.  The original claim used the rational thresholds
`q/4` and `3q/4`; for `q` not divisible by 4 the upper threshold differs
(`⌊3q/4⌋ < 3q/4`), see `lwe_decrypt_threshold_counterexample`. -/
theorem lwe_decrypt_threshold_spec (n q : ℕ) (hq : 0 < q) (s u : Fin n → ℤ)
    (v : ℤ) :
    (lwe_decrypt n q s (u, v) = 1 ↔
      (⌊(q : ℚ) / 4⌋ < (v - lwe_dot s u) % (q : ℤ) ∧
        (v - lwe_dot s u) % (q : ℤ) < ⌊(3 * q : ℚ) / 4⌋))
    ∧ (lwe_decrypt n q s (u, v) = 0 ↔
      ¬ (⌊(q : ℚ) / 4⌋ < (v - lwe_dot s u) % (q : ℤ) ∧
        (v - lwe_dot s u) % (q : ℤ) < ⌊(3 * q : ℚ) / 4⌋)) := by
  have hfloor4 : ⌊(q : ℚ) / 4⌋ = ((q / 4 : ℕ) : ℤ) := by
    have h : ⌊(q : ℚ) / 4⌋ = (q : ℤ) / 4 := by
      rw [show (4 : ℚ) = ((4 : ℕ) : ℚ) by norm_num]
      exact Rat.floor_natCast_div_natCast q 4
    rw [h]
    omega
  have hfloor34 : ⌊(3 * q : ℚ) / 4⌋ = ((3 * q / 4 : ℕ) : ℤ) := by
    have h : ⌊(3 * q : ℚ) / 4⌋ = ((3 * q : ℕ) : ℤ) / 4 := by
      rw [show (3 * q : ℚ) = (((3 * q : ℕ)) : ℚ) by push_cast; ring,
          show (4 : ℚ) = ((4 : ℕ) : ℚ) by norm_num]
      exact Rat.floor_natCast_div_natCast (3 * q) 4
    rw [h]
    omega
  rw [hfloor4, hfloor34]
  simp only [lwe_decrypt]
  split_ifs with h
  · exact ⟨⟨fun _ => h, fun _ => rfl⟩,
      ⟨fun h0 => absurd h0 (by norm_num), fun hn => absurd h hn⟩⟩
  · exact ⟨⟨fun h0 => absurd h0 (by norm_num), fun hc => absurd hc h⟩,
      ⟨fun _ => h, fun _ => rfl⟩⟩

theorem lwe_decrypt_threshold_spec_witness :
    (0 : ℕ) < 251 ∧
      lwe_decrypt 1 251 (fun _ => 0) (fun _ => 0, 100) = 1 :=
  ⟨by norm_num,
   (lwe_decrypt_threshold_spec 1 251 (by norm_num) (fun _ => 0) (fun _ => 0) 100).1.mpr
     (by norm_num [lwe_dot])⟩

/-- C9 (counterexample to the original claim): with the default `q = 251`,
private key `s = 0` and ciphertext `u = 0`, `v = 188`, the decode input is
`result = 188`, which lies strictly between the rational thresholds
`q/4 = 62.75` and `3q/4 = 188.25` — yet `decrypt` returns 0, because the
source's integer comparison `result < 3 * q // 4 = 188` is false. -/
theorem lwe_decrypt_threshold_counterexample :
    lwe_decrypt 1 251 (fun _ => 0) (fun _ => 0, 188) = 0
    ∧ (251 : ℚ) / 4
        < (((188 - lwe_dot (fun _ : Fin 1 => (0 : ℤ)) (fun _ => 0)) % (251 : ℤ) : ℤ) : ℚ)
    ∧ (((188 - lwe_dot (fun _ : Fin 1 => (0 : ℤ)) (fun _ => 0)) % (251 : ℤ) : ℤ) : ℚ)
        < 3 * 251 / 4 := by
  refine ⟨?_, ?_, ?_⟩
  · simp only [lwe_decrypt]
    norm_num [lwe_dot]
  · norm_num [lwe_dot]
  · norm_num [lwe_dot]

theorem sum_modEq {k : ℕ} (m : ℤ) (f g : Fin k → ℤ)
    (h : ∀ i, f i ≡ g i [ZMOD m]) : (∑ i, f i) ≡ (∑ i, g i) [ZMOD m] := by
  show (∑ i, f i) % m = (∑ i, g i) % m
  calc (∑ i, f i) % m = (∑ i, f i % m) % m := Finset.sum_int_mod _ _ _
    _ = (∑ i, g i % m) % m := by
        congr 1
        exact Finset.sum_congr rfl (fun i _ => h i)
    _ = (∑ i, g i) % m := (Finset.sum_int_mod _ _ _).symm

theorem sum_bounds {k : ℕ} (f : Fin k → ℤ) (c : ℤ)
    (h : ∀ i, -c ≤ f i ∧ f i ≤ c) :
    -((k : ℤ) * c) ≤ ∑ i, f i ∧ (∑ i, f i) ≤ (k : ℤ) * c := by
  have h1 : (∑ _i : Fin k, (-c)) ≤ ∑ i, f i := Finset.sum_le_sum (fun i _ => (h i).1)
  have h2 : (∑ i, f i) ≤ ∑ _i : Fin k, c := Finset.sum_le_sum (fun i _ => (h i).2)
  have hc1 : (∑ _i : Fin k, (-c)) = -((k : ℤ) * c) := by
    simp [Finset.sum_const, Finset.card_univ, mul_comm]
  have hc2 : (∑ _i : Fin k, c) = (k : ℤ) * c := by
    simp [Finset.sum_const, Finset.card_univ, mul_comm]
  exact ⟨hc1 ▸ h1, hc2 ▸ h2⟩

/-- C10: with the default parameters `n = 16`, `q = 251`, the LWE round trip
is deterministically correct: for every key pair `generate_keypair` can
produce (`s` with entries in `{-1,0,1}`, `A` with entries in `[0, 251)`,
error `e` with entries in `[-2, 2]`, `b = (A·s + e) mod q`), every bit, and
every random draw inside `encrypt` (`r` binary, `e1`, `e2` in `[-1, 1]`),
`decrypt(s, encrypt((A, b), bit)) = bit`.  The worst-case noise
`e·r + e2 − s·e1` has magnitude at most `16·2 + 1 + 16·1 = 49 < 63 = 125 − 62`,
so the decode thresholds `62 < result < 188` are never crossed. -/
theorem lwe_roundtrip_deterministic
    (A : Fin 16 → Fin 16 → ℤ) (s e r e1 : Fin 16 → ℤ) (e2 : ℤ) (bit : ℕ)
    (hA : ∀ i j, 0 ≤ A i j ∧ A i j < 251)
    (hs : ∀ i, -1 ≤ s i ∧ s i ≤ 1)
    (he : ∀ i, -2 ≤ e i ∧ e i ≤ 2)
    (hr : ∀ i, 0 ≤ r i ∧ r i ≤ 1)
    (he1 : ∀ i, -1 ≤ e1 i ∧ e1 i ≤ 1)
    (he2 : -1 ≤ e2 ∧ e2 ≤ 1)
    (hbit : bit = 0 ∨ bit = 1) :
    lwe_decrypt 16 251 s
      (lwe_encrypt 16 251 A (lwe_public_b 16 251 A s e) r e1 e2 (bit : ℤ)) = bit := by
  set b : Fin 16 → ℤ := lwe_public_b 16 251 A s e with hbdef
  set ct := lwe_encrypt 16 251 A b r e1 e2 (bit : ℤ) with hctdef
  have hbmod : ∀ i, b i ≡ lwe_dot (A i) s + e i [ZMOD ((251 : ℕ) : ℤ)] :=
    fun i => Int.emod_emod_of_dvd _ dvd_rfl
  have humod : ∀ i, ct.1 i ≡ lwe_dot (fun j => A j i) r + e1 i [ZMOD ((251 : ℕ) : ℤ)] :=
    fun i => Int.emod_emod_of_dvd _ dvd_rfl
  have hvmod : ct.2 ≡ lwe_dot b r + e2 + (bit : ℤ) * ((251 / 2 : ℕ) : ℤ)
      [ZMOD ((251 : ℕ) : ℤ)] :=
    Int.emod_emod_of_dvd _ dvd_rfl
  have hbr : lwe_dot b r ≡ ∑ i, (lwe_dot (A i) s + e i) * r i [ZMOD ((251 : ℕ) : ℤ)] :=
    sum_modEq _ _ _ (fun i => (hbmod i).mul_right (r i))
  have hsu : lwe_dot s ct.1 ≡ ∑ i, s i * (lwe_dot (fun j => A j i) r + e1 i)
      [ZMOD ((251 : ℕ) : ℤ)] :=
    sum_modEq _ _ _ (fun i => (humod i).mul_left (s i))
  have hcore : ct.2 - lwe_dot s ct.1 ≡
      ((∑ i, (lwe_dot (A i) s + e i) * r i) + e2 + (bit : ℤ) * ((251 / 2 : ℕ) : ℤ))
        - ∑ i, s i * (lwe_dot (fun j => A j i) r + e1 i) [ZMOD ((251 : ℕ) : ℤ)] :=
    (hvmod.trans (((hbr.add_right e2).add_right _))).sub hsu
  have hkey : ((∑ i, (lwe_dot (A i) s + e i) * r i) + e2 + (bit : ℤ) * ((251 / 2 : ℕ) : ℤ))
      - (∑ i, s i * (lwe_dot (fun j => A j i) r + e1 i))
      = lwe_dot e r + e2 - lwe_dot s e1 + (bit : ℤ) * ((251 / 2 : ℕ) : ℤ) := by
    have hswap : (∑ i : Fin 16, ∑ j : Fin 16, s i * (A j i * r j))
        = ∑ i : Fin 16, ∑ j : Fin 16, A i j * s j * r i := by
      rw [Finset.sum_comm]
      exact Finset.sum_congr rfl (fun i _ => Finset.sum_congr rfl (fun j _ => by ring))
    simp only [lwe_dot, add_mul, mul_add, Finset.sum_add_distrib, Finset.sum_mul,
      Finset.mul_sum]
    rw [hswap]
    ring
  have hmod : ct.2 - lwe_dot s ct.1 ≡
      lwe_dot e r + e2 - lwe_dot s e1 + (bit : ℤ) * ((251 / 2 : ℕ) : ℤ)
      [ZMOD ((251 : ℕ) : ℤ)] := hcore.trans (hkey ▸ Int.ModEq.refl _)
  have hterm1 : ∀ i, -2 ≤ e i * r i ∧ e i * r i ≤ 2 := fun i => by
    have h1 := he i
    have h2 := hr i
    constructor <;> nlinarith [h1.1, h1.2, h2.1, h2.2]
  have hterm2 : ∀ i, -1 ≤ s i * e1 i ∧ s i * e1 i ≤ 1 := fun i => by
    have h1 := hs i
    have h2 := he1 i
    constructor <;> nlinarith [h1.1, h1.2, h2.1, h2.2]
  have her := sum_bounds (fun i => e i * r i) 2 hterm1
  have hse1 := sum_bounds (fun i => s i * e1 i) 1 hterm2
  have her1 : -32 ≤ lwe_dot e r ∧ lwe_dot e r ≤ 32 := by
    have h1 := her.1
    have h2 := her.2
    norm_num at h1 h2
    exact ⟨h1, h2⟩
  have hse2 : -16 ≤ lwe_dot s e1 ∧ lwe_dot s e1 ≤ 16 := by
    have h1 := hse1.1
    have h2 := hse1.2
    norm_num at h1 h2
    exact ⟨h1, h2⟩
  have hdvd := hmod.dvd
  simp only [lwe_decrypt]
  split_ifs with hcond
  · omega
  · omega

theorem lwe_roundtrip_deterministic_witness :
    lwe_decrypt 16 251 (fun _ => 0)
      (lwe_encrypt 16 251 (fun _ _ => 0)
        (lwe_public_b 16 251 (fun _ _ => 0) (fun _ => 0) (fun _ => 0))
        (fun _ => 0) (fun _ => 0) 0 ((0 : ℕ) : ℤ)) = 0 :=
  lwe_roundtrip_deterministic (fun _ _ => 0) (fun _ => 0) (fun _ => 0) (fun _ => 0)
    (fun _ => 0) 0 0 (fun _ _ => by norm_num) (fun _ => by norm_num)
    (fun _ => by norm_num) (fun _ => by norm_num) (fun _ => by norm_num)
    (by norm_num) (Or.inl rfl)

/-! ## 07_advanced_post_quantum.py : KyberDemo

The claim's default parameters `k = 2, n = 256, q = 3329` are fixed.  All
`numpy` products involved are elementwise, so vectors are `Fin 256 → ℤ`
indexed pointwise, and the `k`-indexed loops (`for j in range(self.k)`) are
unrolled to their two iterations exactly as the accumulating code performs
them (accumulator starts at `np.zeros`, and each loop step reduces mod `q`). -/

/-- `KyberDemo.keygen`: `t[i] = (Σ_j A[i,j]*s[j] + e[i]) % q`, accumulated as
`t[i] = (t[i] + A[i,j]*s[j]) % q` for `j = 0, 1` and then `(t[i] + e[i]) % q`. -/
def kyber_t (A : Fin 2 → Fin 2 → Fin 256 → ℤ) (s e : Fin 2 → Fin 256 → ℤ) :
    Fin 2 → Fin 256 → ℤ :=
  fun i x => ((A i 0 x * s 0 x % 3329 + A i 1 x * s 1 x) % 3329 + e i x) % 3329

/-- `KyberDemo.encapsulate`, ciphertext component
`u[i] = (Σ_j A[j,i].T * r[j] + e1[i]) % q` (the `.T` of a 1-D row is the row
itself), accumulated like `kyber_t`. -/
def kyber_u (A : Fin 2 → Fin 2 → Fin 256 → ℤ) (r e1 : Fin 2 → Fin 256 → ℤ) :
    Fin 2 → Fin 256 → ℤ :=
  fun i x => ((A 0 i x * r 0 x % 3329 + A 1 i x * r 1 x) % 3329 + e1 i x) % 3329

/-- `KyberDemo.encapsulate`, ciphertext component
`v = (Σ_i t[i]*r[i] + e2) % q` followed by the message encoding
`v[i] = (v[i] + m[i] * (q // 2)) % q` on the first `min(32, n) = 32`
coefficients. -/
def kyber_v (t r : Fin 2 → Fin 256 → ℤ) (e2 : Fin 256 → ℤ) (m : Fin 32 → ℤ) :
    Fin 256 → ℤ :=
  fun x =>
    let v0 := ((t 0 x * r 0 x % 3329 + t 1 x * r 1 x) % 3329 + e2 x) % 3329
    if h : (x : ℕ) < 32 then (v0 + m ⟨x, h⟩ * (3329 / 2 : ℤ)) % 3329 else v0

/-- Embedding of `KyberDemo.encapsulate(public_key)` with the random draws
(the 32-bit message `m`, `r`, `e1`, `e2`) as inputs; returns
`(shared_secret, ciphertext)` where the shared secret is
`hashlib.sha256(m.tobytes()).digest()`, abstracted as an arbitrary function
`hash` of the message bit vector. -/
def kyber_encapsulate {β : Type} (hash : (Fin 32 → ℤ) → β)
    (A : Fin 2 → Fin 2 → Fin 256 → ℤ) (t : Fin 2 → Fin 256 → ℤ)
    (m : Fin 32 → ℤ) (r e1 : Fin 2 → Fin 256 → ℤ) (e2 : Fin 256 → ℤ) :
    β × ((Fin 2 → Fin 256 → ℤ) × (Fin 256 → ℤ)) :=
  (hash m, (kyber_u A r e1, kyber_v t r e2 m))

/-- Embedding of `KyberDemo.decapsulate(private_key, ciphertext)`:
`result = (v - Σ_i s[i]*u[i]) % q` (accumulated
`result = (result - s[i]*u[i]) % q` for `i = 0, 1`), then each of the first
32 coefficients decodes to 1 iff `q // 4 < result[i] < 3 * q // 4`, and the
shared secret is the hash of the recovered bits (same abstract `hash`). -/
def kyber_decapsulate {β : Type} (hash : (Fin 32 → ℤ) → β)
    (s : Fin 2 → Fin 256 → ℤ) (ct : (Fin 2 → Fin 256 → ℤ) × (Fin 256 → ℤ)) : β :=
  let u := ct.1
  let v := ct.2
  let result := fun x => ((v x - s 0 x * u 0 x) % 3329 - s 1 x * u 1 x) % 3329
  let msg := fun i : Fin 32 =>
    if (3329 / 4 : ℤ) < result (Fin.castLE (by norm_num) i) ∧
        result (Fin.castLE (by norm_num) i) < 3 * 3329 / 4 then (1 : ℤ) else 0
  hash msg

theorem intCast_emod_3329 (a : ℤ) : ((a % 3329 : ℤ) : ZMod 3329) = (a : ZMod 3329) := by
  have h : (3329 : ZMod 3329) = 0 := by decide
  rw [Int.emod_def]
  push_cast
  rw [h]
  ring

/-- C5: with the default parameters `k = 2, n = 256, q = 3329`, the
Kyber-like round trip is deterministic: for every key pair `keygen` can
produce (`s`, `e` with entries in `[-2, 2]`, `A` with entries in
`[0, 3329)`), and every run of `encapsulate` (message bits `m`, randomness
`r`, `e1`, `e2` with entries in `[-1, 1]`), `decapsulate` recovers exactly
the encapsulated message bits, hence returns the same shared secret for any
hash function.  Per coefficient the noise
`e·r + e2 − s·e1` has magnitude at most `2·2 + 1 + 2·2 = 9 < 832`, far below
the decode thresholds `832 < result < 2496` around `q // 2 = 1664`. -/
theorem kyber_roundtrip_deterministic {β : Type} (hash : (Fin 32 → ℤ) → β)
    (A : Fin 2 → Fin 2 → Fin 256 → ℤ) (s e : Fin 2 → Fin 256 → ℤ)
    (m : Fin 32 → ℤ) (r e1 : Fin 2 → Fin 256 → ℤ) (e2 : Fin 256 → ℤ)
    (hA : ∀ i j x, 0 ≤ A i j x ∧ A i j x < 3329)
    (hs : ∀ i x, -2 ≤ s i x ∧ s i x ≤ 2)
    (he : ∀ i x, -2 ≤ e i x ∧ e i x ≤ 2)
    (hm : ∀ i, m i = 0 ∨ m i = 1)
    (hr : ∀ i x, -1 ≤ r i x ∧ r i x ≤ 1)
    (he1 : ∀ i x, -1 ≤ e1 i x ∧ e1 i x ≤ 1)
    (he2 : ∀ x, -1 ≤ e2 x ∧ e2 x ≤ 1) :
    kyber_decapsulate hash s (kyber_encapsulate hash A (kyber_t A s e) m r e1 e2).2
      = (kyber_encapsulate hash A (kyber_t A s e) m r e1 e2).1 := by
  show hash _ = hash m
  congr 1
  funext i
  simp only [kyber_encapsulate]
  set x : Fin 256 := Fin.castLE (by norm_num) i with hxdef
  have hx32 : (x : ℕ) < 32 := i.isLt
  have hmi : (⟨(x : ℕ), hx32⟩ : Fin 32) = i := rfl
  have hv : kyber_v (kyber_t A s e) r e2 m x
      = (((kyber_t A s e 0 x * r 0 x % 3329 + kyber_t A s e 1 x * r 1 x) % 3329
          + e2 x) % 3329 + m i * (3329 / 2 : ℤ)) % 3329 := by
    simp only [kyber_v]
    rw [dif_pos hx32, hmi]
  set R : ℤ := ((kyber_v (kyber_t A s e) r e2 m x
      - s 0 x * kyber_u A r e1 0 x) % 3329 - s 1 x * kyber_u A r e1 1 x) % 3329 with hRdef
  have hcast : ((R : ℤ) : ZMod 3329)
      = ((e 0 x * r 0 x + e 1 x * r 1 x + e2 x - s 0 x * e1 0 x - s 1 x * e1 1 x
          + m i * (3329 / 2 : ℤ) : ℤ) : ZMod 3329) := by
    rw [hRdef, hv]
    simp only [kyber_t, kyber_u]
    push_cast [intCast_emod_3329]
    ring
  have hmodeq : R ≡ e 0 x * r 0 x + e 1 x * r 1 x + e2 x - s 0 x * e1 0 x - s 1 x * e1 1 x
      + m i * (3329 / 2 : ℤ) [ZMOD ((3329 : ℕ) : ℤ)] :=
    (ZMod.intCast_eq_intCast_iff _ _ _).mp hcast
  have hdvd := hmodeq.dvd
  have hR0 : 0 ≤ R := by
    rw [hRdef]
    exact Int.emod_nonneg _ (by norm_num)
  have hR1 : R < 3329 := by
    rw [hRdef]
    exact Int.emod_lt_of_pos _ (by norm_num)
  have hp1 : -2 ≤ e 0 x * r 0 x ∧ e 0 x * r 0 x ≤ 2 := by
    have h1 := he 0 x
    have h2 := hr 0 x
    constructor <;> nlinarith [h1.1, h1.2, h2.1, h2.2]
  have hp2 : -2 ≤ e 1 x * r 1 x ∧ e 1 x * r 1 x ≤ 2 := by
    have h1 := he 1 x
    have h2 := hr 1 x
    constructor <;> nlinarith [h1.1, h1.2, h2.1, h2.2]
  have hp3 : -2 ≤ s 0 x * e1 0 x ∧ s 0 x * e1 0 x ≤ 2 := by
    have h1 := hs 0 x
    have h2 := he1 0 x
    constructor <;> nlinarith [h1.1, h1.2, h2.1, h2.2]
  have hp4 : -2 ≤ s 1 x * e1 1 x ∧ s 1 x * e1 1 x ≤ 2 := by
    have h1 := hs 1 x
    have h2 := he1 1 x
    constructor <;> nlinarith [h1.1, h1.2, h2.1, h2.2]
  have he2x := he2 x
  have hmx := hm i
  split_ifs with hcond
  · omega
  · omega

theorem kyber_roundtrip_deterministic_witness :
    kyber_decapsulate (fun _ => (0 : ℕ)) (fun _ _ => 0)
      (kyber_encapsulate (fun _ => (0 : ℕ)) (fun _ _ _ => 0)
        (kyber_t (fun _ _ _ => 0) (fun _ _ => 0) (fun _ _ => 0))
        (fun _ => 0) (fun _ _ => 0) (fun _ _ => 0) (fun _ => 0)).2
      = (kyber_encapsulate (fun _ => (0 : ℕ)) (fun _ _ _ => 0)
        (kyber_t (fun _ _ _ => 0) (fun _ _ => 0) (fun _ _ => 0))
        (fun _ => 0) (fun _ _ => 0) (fun _ _ => 0) (fun _ => 0)).1 :=
  kyber_roundtrip_deterministic (fun _ => (0 : ℕ)) (fun _ _ _ => 0) (fun _ _ => 0)
    (fun _ _ => 0) (fun _ => 0) (fun _ _ => 0) (fun _ _ => 0) (fun _ => 0)
    (fun _ _ _ => by norm_num) (fun _ _ => by norm_num) (fun _ _ => by norm_num)
    (fun _ => Or.inl rfl) (fun _ _ => by norm_num) (fun _ _ => by norm_num)
    (fun _ => by norm_num)
